import Mathlib

/-!
Verification of the Nexora news pipeline against its specification.

The development shallowly embeds the Python services of the repository:

* `src/services/shared/utils/helpers.py` (`create_article_hash`),
* `src/services/parser_deduper/worker.py` (`ParserDeduper`),
* `src/services/normalizer/worker.py` (`Normalizer.count_words`,
  `Normalizer.normalize_article`),
* `src/services/llm_enricher/worker.py` (`LLMEnricher.truncate_text`,
  `LLMEnricher.enrich_article` in pass-through mode),
* `src/services/api/app/main.py` (`build_elasticsearch_query`,
  `search_articles` in both the Elasticsearch-backed and the mock path).

Python strings are modelled as Lean `String`s operated on through their
`List Char` data; Python `str.split()`, `str.strip()`, `str.lower()` and
`str.split('.')` are re-implemented below with the same (ASCII-level)
semantics.  External collaborators (the HTML extractor, the language
detector, the translator, Elasticsearch) enter as explicit function
arguments or as faithful models of the request the code builds.
-/

namespace Nexora

/-- Whitespace as used by Python's `str.split()` / `str.strip()`
(restricted to the ASCII whitespace characters). -/
def isWs (c : Char) : Bool :=
  c = ' ' || c = '\t' || c = '\n' || c = '\r' || c = '\x0b' || c = '\x0c'

/-- Worker for `pySplitList`: `acc` holds the (reversed) characters of the
word currently being scanned. -/
def splitWsAux : List Char → List Char → List (List Char)
  | [], acc => if acc.isEmpty then [] else [acc.reverse]
  | c :: cs, acc =>
    if isWs c then
      if acc.isEmpty then splitWsAux cs []
      else acc.reverse :: splitWsAux cs []
    else splitWsAux cs (c :: acc)

/-- Python `str.split()` (no separator argument): maximal runs of
non-whitespace characters; empty pieces never occur. -/
def pySplitList (l : List Char) : List (List Char) :=
  splitWsAux l []

/-- Python `str.split()` on a `String`. -/
def pySplit (s : String) : List String :=
  (pySplitList s.data).map String.mk

/-- Python `str.strip()` on character lists: drop whitespace from both ends. -/
def pyStripList (l : List Char) : List Char :=
  ((l.dropWhile isWs).reverse.dropWhile isWs).reverse

/-- Python `str.strip()`. -/
def pyStrip (s : String) : String :=
  String.mk (pyStripList s.data)

/-- Python `sep.join(pieces)` on character lists. -/
def joinWith (sep : List Char) : List (List Char) → List Char
  | [] => []
  | [x] => x
  | x :: y :: t => x ++ sep ++ joinWith sep (y :: t)

/-- `' '.join(pieces)` for a list of strings, on character lists. -/
def joinSpace (ls : List (List Char)) : List Char :=
  joinWith [' '] ls

/-- `' '.join(text.split())`: Python's idiom collapsing all whitespace runs
to single spaces (used by `ParserDeduper.clean_article_text`). -/
def normalizeWs (s : String) : String :=
  String.mk (joinSpace (pySplitList s.data))

/-! ### SHA-256 (model of Python's `hashlib.sha256(...).hexdigest()`)

`create_article_hash` in `helpers.py` delegates to `hashlib.sha256`;
the FIPS 180-4 algorithm is implemented here over lists of byte values
(`Nat`s below 256), with 32-bit words as `Nat`s reduced `% 2^32`. -/

/-- Right-rotation of a 32-bit word. -/
def rotr32 (n x : Nat) : Nat :=
  x / 2 ^ n + x % 2 ^ n * 2 ^ (32 - n)

/-- FIPS 180-4 `Ch(e, f, g)`. -/
def shaCh (e f g : Nat) : Nat :=
  (e &&& f) ^^^ ((e ^^^ 0xffffffff) &&& g)

/-- FIPS 180-4 `Maj(a, b, c)`. -/
def shaMaj (a b c : Nat) : Nat :=
  (a &&& b) ^^^ (a &&& c) ^^^ (b &&& c)

/-- FIPS 180-4 `Σ₀`. -/
def bigSigma0 (x : Nat) : Nat := rotr32 2 x ^^^ rotr32 13 x ^^^ rotr32 22 x

/-- FIPS 180-4 `Σ₁`. -/
def bigSigma1 (x : Nat) : Nat := rotr32 6 x ^^^ rotr32 11 x ^^^ rotr32 25 x

/-- FIPS 180-4 `σ₀`. -/
def smallSigma0 (x : Nat) : Nat := rotr32 7 x ^^^ rotr32 18 x ^^^ x / 2 ^ 3

/-- FIPS 180-4 `σ₁`. -/
def smallSigma1 (x : Nat) : Nat := rotr32 17 x ^^^ rotr32 19 x ^^^ x / 2 ^ 10

/-- The 64 SHA-256 round constants (FIPS 180-4 §4.2.2, in decimal). -/
def shaK : List Nat :=
  [1116352408, 1899447441, 3049323471, 3921009573, 961987163, 1508970993,
   2453635748, 2870763221, 3624381080, 310598401, 607225278, 1426881987,
   1925078388, 2162078206, 2614888103, 3248222580, 3835390401, 4022224774,
   264347078, 604807628, 770255983, 1249150122, 1555081692, 1996064986,
   2554220882, 2821834349, 2952996808, 3210313671, 3336571891, 3584528711,
   113926993, 338241895, 666307205, 773529912, 1294757372, 1396182291,
   1695183700, 1986661051, 2177026350, 2456956037, 2730485921, 2820302411,
   3259730800, 3345764771, 3516065817, 3600352804, 4094571909, 275423344,
   430227734, 506948616, 659060556, 883997877, 958139571, 1322822218,
   1537002063, 1747873779, 1955562222, 2024104815, 2227730452, 2361852424,
   2428436474, 2756734187, 3204031479, 3329325298]

/-- The SHA-256 initial hash value (FIPS 180-4 §5.3.3, in decimal). -/
def shaInitH : List Nat :=
  [1779033703, 3144134277, 1013904242, 2773480762,
   1359893119, 2600822924, 528734635, 1541459225]

/-- `k`-byte big-endian encoding of `n`. -/
def toBytesBE : Nat → Nat → List Nat
  | 0, _ => []
  | k + 1, n => toBytesBE k (n / 256) ++ [n % 256]

/-- SHA-256 padding: `0x80`, zeros, then the 64-bit big-endian bit length,
bringing the length to a multiple of 64 bytes. -/
def shaPad (msg : List Nat) : List Nat :=
  msg ++ [0x80] ++ List.replicate ((119 - msg.length % 64) % 64) 0
      ++ toBytesBE 8 (8 * msg.length)

/-- Split a byte list into 64-byte blocks. -/
def chunks64 : List Nat → List (List Nat)
  | [] => []
  | c :: cs => (c :: cs).take 64 :: chunks64 ((c :: cs).drop 64)
termination_by l => l.length
decreasing_by simp [List.length_drop]; omega

/-- Group bytes into big-endian 32-bit words. -/
def toWords32 : List Nat → List Nat
  | b0 :: b1 :: b2 :: b3 :: rest =>
    (((b0 * 256 + b1) * 256 + b2) * 256 + b3) :: toWords32 rest
  | _ => []

/-- Extend the 16 block words to the 64-entry message schedule. -/
def shaSchedule (block : List Nat) : Array Nat :=
  (List.range 48).foldl
    (fun w i =>
      let t := i + 16
      w.push ((smallSigma1 (w.getD (t - 2) 0) + w.getD (t - 7) 0
               + smallSigma0 (w.getD (t - 15) 0) + w.getD (t - 16) 0) % 2 ^ 32))
    (toWords32 block).toArray

/-- One SHA-256 compression-function application. -/
def shaCompress (h : List Nat) (block : List Nat) : List Nat :=
  let ws := shaSchedule block
  let st :=
    (List.range 64).foldl
      (fun st i =>
        let (a, b, c, d, e, f, g, hh) := st
        let t1 := (hh + bigSigma1 e + shaCh e f g + shaK.getD i 0 + ws.getD i 0) % 2 ^ 32
        let t2 := (bigSigma0 a + shaMaj a b c) % 2 ^ 32
        ((t1 + t2) % 2 ^ 32, a, b, c, (d + t1) % 2 ^ 32, e, f, g))
      (h.getD 0 0, h.getD 1 0, h.getD 2 0, h.getD 3 0,
       h.getD 4 0, h.getD 5 0, h.getD 6 0, h.getD 7 0)
  let (a, b, c, d, e, f, g, hh) := st
  [(h.getD 0 0 + a) % 2 ^ 32, (h.getD 1 0 + b) % 2 ^ 32,
   (h.getD 2 0 + c) % 2 ^ 32, (h.getD 3 0 + d) % 2 ^ 32,
   (h.getD 4 0 + e) % 2 ^ 32, (h.getD 5 0 + f) % 2 ^ 32,
   (h.getD 6 0 + g) % 2 ^ 32, (h.getD 7 0 + hh) % 2 ^ 32]

/-- SHA-256 digest of a byte list, as 32 bytes. -/
def sha256Bytes (msg : List Nat) : List Nat :=
  ((chunks64 (shaPad msg)).foldl shaCompress shaInitH).flatMap (toBytesBE 4)

/-- Lowercase hexadecimal digit. -/
def hexDigitChar (n : Nat) : Char :=
  if n < 10 then Char.ofNat ('0'.toNat + n) else Char.ofNat ('a'.toNat + n - 10)

/-- Lowercase hexadecimal rendering of a byte list
(Python's `.hexdigest()`). -/
def bytesToHex (bs : List Nat) : String :=
  String.mk (bs.flatMap fun b => [hexDigitChar (b / 16), hexDigitChar (b % 16)])

/-- UTF-8 encoding of one character (Python `str.encode('utf-8')`). -/
def utf8Char (c : Char) : List Nat :=
  let n := c.toNat
  if n < 0x80 then [n]
  else if n < 0x800 then [0xc0 + n / 64, 0x80 + n % 64]
  else if n < 0x10000 then
    [0xe0 + n / 4096, 0x80 + n / 64 % 64, 0x80 + n % 64]
  else
    [0xf0 + n / 262144, 0x80 + n / 4096 % 64, 0x80 + n / 64 % 64, 0x80 + n % 64]

/-- UTF-8 encoding of a string. -/
def utf8Encode (s : String) : List Nat :=
  s.data.flatMap utf8Char

/-- Python `str.lower()` (ASCII letters). -/
def pyLower (s : String) : String :=
  String.mk (s.data.map Char.toLower)

/-- `helpers.create_article_hash`: SHA-256 hex digest of the UTF-8 bytes of
`f"{title.strip().lower()}{content.strip().lower()}"`. -/
def create_article_hash (title content : String) : String :=
  bytesToHex (sha256Bytes (utf8Encode (pyLower (pyStrip title) ++ pyLower (pyStrip content))))

/-- The content hash as the specification words it: the hex-encoded SHA-256
digest of the lowercased, trimmed title followed by the lowercased, trimmed
text (each encoded to bytes, then concatenated). -/
def spec_content_hash (title content : String) : String :=
  bytesToHex (sha256Bytes (utf8Encode (pyLower (pyStrip title)) ++ utf8Encode (pyLower (pyStrip content))))

/-! ### Shared data model (`schema/models.py`)

Timestamps travel as ISO-8601 strings (the wire format), numbers as `ℚ`,
and the free-form `metadata` dicts as association lists over a small JSON
value type. -/

/-- A JSON value, as stored in the `metadata` dicts and in the mock corpus. -/
inductive JValue where
  | str (s : String)
  | num (q : ℚ)
  | bool (b : Bool)
  | null
  | arr (elems : List JValue)
  | obj (fields : List (String × JValue))

/-- `schema.models.RawArticle`. -/
structure RawArticle where
  id : String
  url : String
  title : String
  content : String
  author : Option String
  source : String
  published_at : String
  scraped_at : String
  metadata : List (String × JValue)

/-- `schema.models.CleanedArticle`. -/
structure CleanedArticle where
  id : String
  url : String
  title : String
  text : String
  author : Option String
  source : String
  published_at : String
  scraped_at : String
  content_hash : String
  is_duplicate : Bool
  metadata : List (String × JValue)

/-- `schema.models.NormalizedArticle`. -/
structure NormalizedArticle where
  id : String
  url : String
  title : String
  text : String
  author : Option String
  source : String
  published_at : String
  scraped_at : String
  content_hash : String
  language : String
  translated_title : Option String
  translated_text : Option String
  word_count : Nat
  metadata : List (String × JValue)

/-- `schema.models.EnrichedArticle`.  `sentiment` is carried as its wire
string; `sentiment_score` and `embeddings` as rationals. -/
structure EnrichedArticle where
  id : String
  url : String
  title : String
  text : String
  author : Option String
  source : String
  published_at : String
  scraped_at : String
  content_hash : String
  language : String
  translated_title : Option String
  translated_text : Option String
  word_count : Nat
  summary : String
  topics : List String
  entities : List String
  sentiment : String
  sentiment_score : ℚ
  embeddings : List ℚ
  metadata : List (String × JValue)

/-- Python's `{**m, key: v}`: every binding of `m` except `key`, plus the
new binding for `key`. -/
def mergeMeta (m : List (String × JValue)) (key : String) (v : JValue) :
    List (String × JValue) :=
  m.filter (fun kv => !(kv.1 == key)) ++ [(key, v)]

/-! ### Parser/Deduper (`parser_deduper/worker.py`)

The HTML extractor (`clean_html`, BeautifulSoup) is an external library and
enters as the function argument `cleanHtml`.  The Redis store and the local
`seen_hashes` set behave, within one dedup window on the healthy path, as a
single growing set of hashes, modelled as a duplicate-free list. -/

/-- `ParserDeduper.clean_article_text`: collapse whitespace runs to single
spaces, then reject (return `""`) any text shorter than 100 characters. -/
def clean_article_text (cleanHtml : String → String) (raw_content : String) : String :=
  let cleaned_text := normalizeWs (cleanHtml raw_content)
  if (pyStrip cleaned_text).length < 100 then "" else pyStrip cleaned_text

/-- `ParserDeduper.is_duplicate`: membership test in the seen-hash store;
an unseen hash is recorded (`SET-IF-ABSENT`) and reported fresh.  Returns
the verdict together with the updated store. -/
def is_duplicate (seen : List String) (content_hash : String) : Bool × List String :=
  if content_hash ∈ seen then (true, seen) else (false, content_hash :: seen)

/-- `ParserDeduper.process_article`: clean, hash, dedup-check, and build the
`CleanedArticle`.  `none` models the `ValueError` raised (and caught by the
consume loop) when the cleaned text is empty. -/
def process_article (cleanHtml : String → String) (seen : List String)
    (raw : RawArticle) : Option CleanedArticle × List String :=
  let cleaned_text := clean_article_text cleanHtml raw.content
  if cleaned_text = "" then (none, seen)
  else
    let content_hash := create_article_hash raw.title cleaned_text
    let dup := is_duplicate seen content_hash
    (some { id := raw.id, url := raw.url, title := pyStrip raw.title,
            text := cleaned_text, author := raw.author, source := raw.source,
            published_at := raw.published_at, scraped_at := raw.scraped_at,
            content_hash := content_hash, is_duplicate := dup.1,
            metadata := raw.metadata }, dup.2)

/-- `ParserDeduper.process_messages`: the consume loop.  Failed articles are
skipped, duplicates are dropped, everything else is published in order.
Returns the published records and the final seen-hash store. -/
def process_messages (cleanHtml : String → String) (seen : List String) :
    List RawArticle → List CleanedArticle × List String
  | [] => ([], seen)
  | a :: rest =>
    match process_article cleanHtml seen a with
    | (none, seen') => process_messages cleanHtml seen' rest
    | (some c, seen') =>
      if c.is_duplicate then process_messages cleanHtml seen' rest
      else
        let r := process_messages cleanHtml seen' rest
        (c :: r.1, r.2)

/-- `ParserDeduper.cleanup_cache`: drop the whole local cache once it
exceeds 10,000 entries.  (Defined by the worker but never invoked from its
consume loop.) -/
def cleanup_cache (seen : List String) : List String :=
  if seen.length > 10000 then [] else seen

/-! ### Normalizer (`normalizer/worker.py`)

Language detection and translation are external services; the detected
language and translation results enter as arguments. -/

/-- `Normalizer.count_words`: `len([w for w in text.split() if w.strip()])`. -/
def count_words (text : String) : Nat :=
  ((pySplit text).filter (fun w => pyStrip w ≠ "")).length

/-- `Normalizer.normalize_article`, with the externally detected `language`
and the translator's outputs supplied as arguments. -/
def normalize_article (c : CleanedArticle) (language : String)
    (translated_title translated_text : Option String)
    (enable_translation : Bool) (target_language : String) : NormalizedArticle :=
  { id := c.id, url := c.url, title := c.title, text := c.text,
    author := c.author, source := c.source, published_at := c.published_at,
    scraped_at := c.scraped_at, content_hash := c.content_hash,
    language := language, translated_title := translated_title,
    translated_text := translated_text, word_count := count_words c.text,
    metadata := mergeMeta c.metadata "normalization"
      (.obj [("detected_language", .str language),
             ("translation_enabled", .bool enable_translation),
             ("target_language",
              if enable_translation then .str target_language else .null)]) }

/-! ### LLM enricher (`llm_enricher/worker.py`) -/

/-- Prepend a character to the first piece of a split. -/
def consHead (c : Char) : List (List Char) → List (List Char)
  | [] => [[c]]
  | h :: t => (c :: h) :: t

/-- Python `text[:max_chars].split('.')`: split on every `'.'`, keeping
empty pieces; never returns the empty list. -/
def splitOnDot : List Char → List (List Char)
  | [] => [[]]
  | c :: cs => if c = '.' then [] :: splitOnDot cs else consHead c (splitOnDot cs)

/-- `LLMEnricher.truncate_text`. -/
def truncate_text (text : String) (max_chars : Nat) : String :=
  if text.length ≤ max_chars then text
  else
    let sentences := splitOnDot (text.data.take max_chars)
    if 1 < sentences.length then
      String.mk (joinWith ['.'] sentences.dropLast ++ ['.'])
    else String.mk (text.data.take max_chars) ++ "..."

/-- `LLMEnricher.enrich_article` in pass-through mode (no `GOOGLE_API_KEY`):
copy every field forward, take the first 200 characters (plus ellipsis) as
the summary, use the fixed defaults, and stamp the `enrichment` metadata
block with the current UTC time `now`. -/
def enrich_article_passthrough (a : NormalizedArticle) (now : String) : EnrichedArticle :=
  { id := a.id, url := a.url, title := a.title, text := a.text,
    author := a.author, source := a.source, published_at := a.published_at,
    scraped_at := a.scraped_at, content_hash := a.content_hash,
    language := a.language, translated_title := a.translated_title,
    translated_text := a.translated_text, word_count := a.word_count,
    summary :=
      if a.text.length > 200 then String.mk (a.text.data.take 200) ++ "..."
      else a.text,
    topics := ["general", "news"], entities := [], sentiment := "neutral",
    sentiment_score := 0, embeddings := [],
    metadata := mergeMeta a.metadata "enrichment"
      (.obj [("enriched_at", .str now),
             ("model", .str "pass-through"),
             ("embedding_model", .str "none")]) }

/-! ### Query API (`api/app/main.py`) -/

/-- The parameters of `GET /search` (`schema.models.SearchRequest`). -/
structure SearchRequest where
  query : String
  topics : Option (List String)
  sources : Option (List String)
  languages : Option (List String)
  sentiment : Option String
  date_from : Option String
  date_to : Option String
  page : Nat
  size : Nat

/-- One clause of the Elasticsearch bool query built by the API. -/
inductive ESClause where
  | multiMatch (query : String)
  | termsTopics (topics : List String)
  | termsSource (sources : List String)
  | termsLanguage (languages : List String)
  | termSentiment (sentiment : String)
  | rangePublishedAt (gte lte : Option String)
  | matchAll

/-- The `bool` query `{must, filter}` sent to Elasticsearch. -/
structure ESBoolQuery where
  must : List ESClause
  filter : List ESClause

/-- Python truthiness of an `Optional[List[str]]`: `None` and `[]` are
falsy. -/
def truthyOptList (o : Option (List String)) : Bool :=
  match o with
  | some (_ :: _) => true
  | _ => false

/-- `build_elasticsearch_query`: text clause if the query string is
nonempty, one filter per supplied facet, and `match_all` when no must
clause was added. -/
def build_elasticsearch_query (r : SearchRequest) : ESBoolQuery :=
  let must := if r.query ≠ "" then [ESClause.multiMatch r.query] else []
  let filter :=
    (if truthyOptList r.topics then [ESClause.termsTopics (r.topics.getD [])] else [])
    ++ (if truthyOptList r.sources then [ESClause.termsSource (r.sources.getD [])] else [])
    ++ (if truthyOptList r.languages then [ESClause.termsLanguage (r.languages.getD [])] else [])
    ++ (if r.sentiment.isSome then [ESClause.termSentiment (r.sentiment.getD "")] else [])
    ++ (if r.date_from.isSome || r.date_to.isSome then
          [ESClause.rangePublishedAt r.date_from r.date_to] else [])
  { must := if must.isEmpty then [ESClause.matchAll] else must, filter := filter }

/-- Modelled from the spec: Elasticsearch's evaluation of a single clause
against a stored document.  The store is an out-of-scope collaborator; the
fuzzy multi-field full-text match is abstracted as the oracle `mm`. -/
def esClauseMatches (mm : String → EnrichedArticle → Bool) :
    ESClause → EnrichedArticle → Bool
  | .multiMatch q, a => mm q a
  | .termsTopics ts, a => ts.any (fun t => a.topics.contains t)
  | .termsSource ss, a => ss.contains a.source
  | .termsLanguage ls, a => ls.contains a.language
  | .termSentiment s, a => a.sentiment == s
  | .rangePublishedAt gte lte, a =>
    (match gte with | none => true | some d => decide (d ≤ a.published_at)) &&
    (match lte with | none => true | some d => decide (a.published_at ≤ d))
  | .matchAll, _ => true

/-- A document matches the bool query when every `must` and every `filter`
clause matches. -/
def esQueryMatches (mm : String → EnrichedArticle → Bool) (q : ESBoolQuery)
    (a : EnrichedArticle) : Bool :=
  q.must.all (esClauseMatches mm · a) && q.filter.all (esClauseMatches mm · a)

/-- Descending (lexicographic byte) order on `published_at`, the order
Elasticsearch applies to the ISO-8601 date strings. -/
def pubDesc (a b : EnrichedArticle) : Prop :=
  b.published_at.data ≤ a.published_at.data

/-- Descending order on `published_at` is total. -/
instance : IsTotal EnrichedArticle pubDesc :=
  ⟨fun a b => le_total b.published_at.data a.published_at.data⟩

/-- Descending order on `published_at` is transitive. -/
instance : IsTrans EnrichedArticle pubDesc :=
  ⟨fun _ _ _ hab hbc => le_trans hbc hab⟩

/-- `pubDesc` is decidable. -/
instance (a b : EnrichedArticle) : Decidable (pubDesc a b) :=
  inferInstanceAs (Decidable (b.published_at.data ≤ a.published_at.data))

/-- Modelled from the spec: the store-backed `/search` path.  The API sends
the built query with `sort: published_at desc` and `from/size` pagination;
the external store executes exactly that request over its documents. -/
def es_search (mm : String → EnrichedArticle → Bool) (store : List EnrichedArticle)
    (r : SearchRequest) : List EnrichedArticle :=
  let hits := store.filter (esQueryMatches mm (build_elasticsearch_query r))
  let sorted := hits.insertionSort pubDesc
  (sorted.drop ((r.page - 1) * r.size)).take r.size

/-- The response schema of `GET /search`. -/
structure SearchResponse where
  articles : List EnrichedArticle
  total : Nat
  page : Nat
  size : Nat
  took : Nat

/-- The mock corpus of `api/app/main.py`, transcribed dict by dict. -/
def MOCK_ARTICLES : List (List (String × JValue)) :=
  [[("id", .str "1"),
    ("title", .str "AI Revolution in Healthcare"),
    ("content", .str "Artificial intelligence is transforming healthcare with new diagnostic tools and treatment methods. Machine learning algorithms are now capable of detecting diseases earlier than traditional methods."),
    ("summary", .str "AI is revolutionizing healthcare through advanced diagnostic tools and early disease detection capabilities."),
    ("url", .str "https://example.com/ai-healthcare"),
    ("published_at", .str "2025-09-14T01:00:00Z"),
    ("source", .str "TechNews"),
    ("author", .str "Dr. Sarah Johnson"),
    ("language", .str "en"),
    ("topics", .arr [.str "artificial intelligence", .str "healthcare", .str "technology"]),
    ("entities", .arr [.str "AI", .str "machine learning", .str "healthcare"]),
    ("sentiment", .str "positive"),
    ("sentiment_score", .num (8/10)),
    ("word_count", .num 150),
    ("category", .str "Technology"),
    ("translated_text", .null)],
   [("id", .str "2"),
    ("title", .str "Climate Change Impact on Global Economy"),
    ("content", .str "Recent studies show that climate change is having significant impacts on the global economy, affecting agriculture, tourism, and energy sectors worldwide."),
    ("summary", .str "Climate change is significantly impacting global economy across multiple sectors including agriculture and tourism."),
    ("url", .str "https://example.com/climate-economy"),
    ("published_at", .str "2025-09-14T02:00:00Z"),
    ("source", .str "Global News"),
    ("author", .str "Maria Rodriguez"),
    ("language", .str "en"),
    ("topics", .arr [.str "climate change", .str "economy", .str "environment"]),
    ("entities", .arr [.str "climate", .str "economy", .str "agriculture", .str "tourism"]),
    ("sentiment", .str "negative"),
    ("sentiment_score", .num (-(6/10))),
    ("word_count", .num 200),
    ("category", .str "Environment"),
    ("translated_text", .null)],
   [("id", .str "3"),
    ("title", .str "Space Exploration Breakthrough"),
    ("content", .str "Scientists have made a groundbreaking discovery about exoplanets that could change our understanding of life in the universe. The new findings suggest habitable conditions may be more common than previously thought."),
    ("summary", .str "New exoplanet research suggests habitable conditions may be more widespread in the universe."),
    ("url", .str "https://example.com/space-discovery"),
    ("published_at", .str "2025-09-14T03:00:00Z"),
    ("source", .str "Science Daily"),
    ("author", .str "Prof. Michael Chen"),
    ("language", .str "en"),
    ("topics", .arr [.str "space", .str "science", .str "discovery"]),
    ("entities", .arr [.str "exoplanets", .str "space", .str "universe", .str "science"]),
    ("sentiment", .str "positive"),
    ("sentiment_score", .num (9/10)),
    ("word_count", .num 180),
    ("category", .str "Science"),
    ("translated_text", .null)]]

/-- Read a required string field. -/
def jStr : Option JValue → Option String
  | some (.str s) => some s
  | _ => none

/-- Read a `Dict` entry for an `Optional[str]` pydantic field: absent and
JSON `null` both become `None`. -/
def jOptStr (v : Option JValue) : Option String :=
  match v with
  | some (.str s) => some s
  | _ => none

/-- Read a required non-negative integer field. -/
def jNat : Option JValue → Option Nat
  | some (.num q) => if q.den = 1 ∧ 0 ≤ q.num then some q.num.toNat else none
  | _ => none

/-- Read a required number field. -/
def jNum : Option JValue → Option ℚ
  | some (.num q) => some q
  | _ => none

/-- Read a `List[str]` field with `default_factory=list`. -/
def jStrListD : Option JValue → Option (List String)
  | none => some []
  | some (.arr l) =>
    l.mapM (fun v => match v with | .str s => some s | _ => none)
  | _ => none

/-- Pydantic validation of `EnrichedArticle(**d)`: every field of
`schema.models.EnrichedArticle` without a default must be present with the
right shape, otherwise a `ValidationError` (here `none`) is raised. -/
def validate_enriched (d : List (String × JValue)) : Option EnrichedArticle := do
  let id ← jStr (d.lookup "id")
  let url ← jStr (d.lookup "url")
  let title ← jStr (d.lookup "title")
  let text ← jStr (d.lookup "text")
  let source ← jStr (d.lookup "source")
  let published_at ← jStr (d.lookup "published_at")
  let scraped_at ← jStr (d.lookup "scraped_at")
  let content_hash ← jStr (d.lookup "content_hash")
  let language ← jStr (d.lookup "language")
  let word_count ← jNat (d.lookup "word_count")
  let summary ← jStr (d.lookup "summary")
  let sentiment ← jStr (d.lookup "sentiment")
  if sentiment ∈ ["positive", "negative", "neutral"] then
    let sentiment_score ← jNum (d.lookup "sentiment_score")
    let topics ← jStrListD (d.lookup "topics")
    let entities ← jStrListD (d.lookup "entities")
    some { id := id, url := url, title := title, text := text,
           author := jOptStr (d.lookup "author"), source := source,
           published_at := published_at, scraped_at := scraped_at,
           content_hash := content_hash, language := language,
           translated_title := jOptStr (d.lookup "translated_title"),
           translated_text := jOptStr (d.lookup "translated_text"),
           word_count := word_count, summary := summary, topics := topics,
           entities := entities, sentiment := sentiment,
           sentiment_score := sentiment_score, embeddings := [],
           metadata := [] }
  else none

/-- Does `l` start with `p`? -/
def listStartsWith : List Char → List Char → Bool
  | [], _ => true
  | _ :: _, [] => false
  | p :: ps, l :: ls => p == l && listStartsWith ps ls

/-- Does `l` contain `p` as a contiguous subsequence? -/
def listContainsSeq (p : List Char) : List Char → Bool
  | [] => p.isEmpty
  | l :: ls => listStartsWith p (l :: ls) || listContainsSeq p ls

/-- Python's `needle in hay` on strings (substring test). -/
def pyIn (needle hay : String) : Bool :=
  listContainsSeq needle.data hay.data

/-- Dict access `d[k]` for the string fields of the mock corpus. -/
def dgetStr (d : List (String × JValue)) (k : String) : String :=
  match jStr (d.lookup k) with
  | some s => s
  | none => ""

/-- Dict access `d[k]` for the list-of-string fields of the mock corpus. -/
def dgetList (d : List (String × JValue)) (k : String) : List String :=
  match d.lookup k with
  | some (.arr l) => l.filterMap (fun v => match v with | .str s => some s | _ => none)
  | _ => []

/-- The `filtered_articles` value of the mock branch of `search_articles`:
the corpus filtered by query substring, topics, sources and sentiment, in
corpus order.  (The mock branch ignores `languages` and applies no sort.) -/
def mock_filtered_articles (query : String) (topics sources : Option (List String))
    (sentiment : Option String) : List (List (String × JValue)) :=
  let fa := MOCK_ARTICLES
  let fa :=
    if query ≠ "" then
      fa.filter (fun a =>
        pyIn (pyLower query) (pyLower (dgetStr a "title"))
        || pyIn (pyLower query) (pyLower (dgetStr a "content"))
        || pyIn (pyLower query) (pyLower (dgetStr a "summary")))
    else fa
  let fa :=
    if truthyOptList topics then
      fa.filter (fun a =>
        (topics.getD []).any (fun topic =>
          ((dgetList a "topics").map pyLower).contains (pyLower topic)))
    else fa
  let fa :=
    if truthyOptList sources then
      fa.filter (fun a => (sources.getD []).contains (dgetStr a "source"))
    else fa
  let fa :=
    if sentiment.isSome then
      fa.filter (fun a => dgetStr a "sentiment" == sentiment.getD "")
    else fa
  fa

/-- The mock branch of `search_articles`: filter the corpus, construct an
`EnrichedArticle` from every match, and paginate.  `none` models the
`ValidationError` raised by `EnrichedArticle(**article)` escaping to the
endpoint's exception handler (HTTP 500). -/
def mock_search (query : String) (topics sources : Option (List String))
    (sentiment : Option String) (page size : Nat) : Option SearchResponse :=
  let filtered := mock_filtered_articles query topics sources sentiment
  match filtered.mapM validate_enriched with
  | none => none
  | some articles =>
    some { articles := (articles.drop ((page - 1) * size)).take size,
           total := articles.length, page := page, size := size, took := 1 }

/-! ### Derived definitions and concrete sample data -/

/-- The content hash `process_article` computes for a raw article. -/
def hashOf (cleanHtml : String → String) (a : RawArticle) : String :=
  create_article_hash a.title (clean_article_text cleanHtml a.content)

/-- A raw article survives the cleaning stage: its cleaned text is
nonempty (equivalently, at least 100 characters long). -/
def validArticle (cleanHtml : String → String) (a : RawArticle) : Prop :=
  clean_article_text cleanHtml a.content ≠ ""

/-- Validity of an article is decidable. -/
instance (cleanHtml : String → String) (a : RawArticle) :
    Decidable (validArticle cleanHtml a) :=
  inferInstanceAs (Decidable (clean_article_text cleanHtml a.content ≠ ""))

/-- The `CleanedArticle` that `process_article` publishes for a fresh
(non-duplicate) raw article. -/
def publishedRecord (cleanHtml : String → String) (a : RawArticle) : CleanedArticle :=
  { id := a.id, url := a.url, title := pyStrip a.title,
    text := clean_article_text cleanHtml a.content, author := a.author,
    source := a.source, published_at := a.published_at,
    scraped_at := a.scraped_at, content_hash := hashOf cleanHtml a,
    is_duplicate := false, metadata := a.metadata }

/-- The prefix of `l` up to and including its last `'.'` (the sentence
boundary the spec describes truncation by). -/
def uptoLastDot (l : List Char) : List Char :=
  (l.reverse.dropWhile (fun c => !(c == '.'))).reverse

/-- The `enriched_at` timestamp recorded in an article's `enrichment`
metadata block, if any. -/
def getEnrichedAt (e : EnrichedArticle) : Option String :=
  match e.metadata.lookup "enrichment" with
  | some (.obj l) => jStr (l.lookup "enriched_at")
  | _ => none

/-- Remove the `enriched_at` key from an `enrichment` JSON object. -/
def eraseObjKeyEnrichedAt : JValue → JValue
  | .obj l => .obj (l.filter (fun p => !(p.1 == "enriched_at")))
  | v => v

/-- An enriched article with the `enriched_at` timestamp of its
`enrichment` metadata block removed; all other data is kept. -/
def erase_enriched_at (e : EnrichedArticle) : EnrichedArticle :=
  { e with
    metadata := e.metadata.map (fun kv =>
      if kv.1 == "enrichment" then (kv.1, eraseObjKeyEnrichedAt kv.2) else kv) }

/-- A 100-character plain text (exactly at the acceptance threshold). -/
def longText : String :=
  String.mk (List.replicate 100 'a')

/-- A concrete raw article with valid (100-character) content; three copies
with distinct ids but identical title and content are used below. -/
def rawA (i : String) : RawArticle :=
  { id := i, url := "https://example.com/a", title := "Quantum Leap",
    content := longText, author := none, source := "feed",
    published_at := "2025-01-15T10:00:00Z", scraped_at := "2025-01-15T10:05:00Z",
    metadata := [] }

/-- A concrete raw article whose content cleans to fewer than 100
characters. -/
def rawShort : RawArticle :=
  { id := "s", url := "https://example.com/s", title := "Tiny",
    content := "too short", author := none, source := "feed",
    published_at := "2025-01-15T10:00:00Z", scraped_at := "2025-01-15T10:05:00Z",
    metadata := [] }

/-- The cleaned article published for `rawA "1"` from an empty dedup store. -/
def cleanedSample : CleanedArticle :=
  publishedRecord id (rawA "1")

/-- Three raw articles with identical `(title, content)` but distinct ids. -/
def c1msgs : List RawArticle :=
  [rawA "1", rawA "2", rawA "3"]

/-- A concrete normalized article. -/
def normSample : NormalizedArticle :=
  { id := "1", url := "https://example.com/a", title := "Quantum Leap",
    text := "Some article text.", author := none, source := "feed",
    published_at := "2025-01-15T10:00:00Z", scraped_at := "2025-01-15T10:05:00Z",
    content_hash := "deadbeef", language := "en", translated_title := none,
    translated_text := none, word_count := 3,
    metadata := [("source_feed", .str "rss")] }

/-- A dedup-store state holding 10,001 distinct hashes. -/
def bigCache : List String :=
  (List.range 10001).map Nat.repr

/-- The `/search` request with an empty query string and no filters. -/
def emptySearchRequest : SearchRequest :=
  { query := "", topics := none, sources := none, languages := none,
    sentiment := none, date_from := none, date_to := none, page := 1, size := 20 }


/-! ## Helper lemmas on splitting and stripping -/

theorem splitWsAux_tokens :
    ∀ (l acc : List Char), (∀ c ∈ acc, isWs c = false) →
      ∀ w ∈ splitWsAux l acc, w ≠ [] ∧ ∀ c ∈ w, isWs c = false := by
  intro l
  induction l with
  | nil =>
    intro acc hacc w hw
    cases acc with
    | nil => simp [splitWsAux] at hw
    | cons a as =>
      simp only [splitWsAux, List.isEmpty_cons, Bool.false_eq_true, if_false,
        List.mem_singleton] at hw
      subst hw
      refine ⟨by simp, ?_⟩
      intro c hc
      exact hacc c (List.mem_reverse.mp hc)
  | cons c cs ih =>
    intro acc hacc w hw
    rw [splitWsAux] at hw
    cases hc : isWs c with
    | true =>
      rw [hc, if_pos rfl] at hw
      cases acc with
      | nil =>
        simp only [List.isEmpty_nil, if_pos] at hw
        exact ih [] (by simp) w hw
      | cons a as =>
        simp only [List.isEmpty_cons, Bool.false_eq_true, if_false, List.mem_cons] at hw
        rcases hw with hw | hw
        · subst hw
          refine ⟨by simp, ?_⟩
          intro d hd
          exact hacc d (List.mem_reverse.mp hd)
        · exact ih [] (by simp) w hw
    | false =>
      rw [hc] at hw
      simp only [Bool.false_eq_true, if_false] at hw
      refine ih (c :: acc) ?_ w hw
      intro d hd
      rcases List.mem_cons.mp hd with rfl | hd
      · exact hc
      · exact hacc d hd

theorem splitWsAux_ne_nil_of_acc :
    ∀ (l acc : List Char), acc ≠ [] → splitWsAux l acc ≠ [] := by
  intro l
  induction l with
  | nil =>
    intro acc hacc
    cases acc with
    | nil => exact absurd rfl hacc
    | cons a as => simp [splitWsAux]
  | cons c cs ih =>
    intro acc hacc
    rw [splitWsAux]
    cases hc : isWs c with
    | true =>
      rw [if_pos rfl]
      cases acc with
      | nil => exact absurd rfl hacc
      | cons a as => simp
    | false =>
      simp only [Bool.false_eq_true, if_false]
      exact ih (c :: acc) (by simp)

theorem splitWsAux_ne_nil_of_mem :
    ∀ (l acc : List Char) (c : Char), c ∈ l → isWs c = false →
      splitWsAux l acc ≠ [] := by
  intro l
  induction l with
  | nil => intro acc c hc; simp at hc
  | cons a as ih =>
    intro acc c hc hws
    rw [splitWsAux]
    cases ha : isWs a with
    | true =>
      have hmem : c ∈ as := by
        rcases List.mem_cons.mp hc with rfl | h
        · rw [ha] at hws; exact absurd hws (by simp)
        · exact h
      rw [if_pos rfl]
      cases acc with
      | nil => simpa using ih [] c hmem hws
      | cons b bs => simp
    | false =>
      simp only [Bool.false_eq_true, if_false]
      exact splitWsAux_ne_nil_of_acc as (a :: acc) (by simp)

theorem dropWhile_eq_self_of_forall {p : Char → Bool} :
    ∀ l : List Char, (∀ c ∈ l, p c = false) → l.dropWhile p = l := by
  intro l h
  cases l with
  | nil => rfl
  | cons a as => simp [List.dropWhile_cons, h a (by simp)]

theorem pyStripList_eq_self {l : List Char} (h : ∀ c ∈ l, isWs c = false) :
    pyStripList l = l := by
  unfold pyStripList
  rw [dropWhile_eq_self_of_forall l h,
    dropWhile_eq_self_of_forall _ (fun c hc => h c (List.mem_reverse.mp hc)),
    List.reverse_reverse]

theorem pyStripList_has_non_ws (l : List Char) (h : pyStripList l ≠ []) :
    ∃ c ∈ pyStripList l, isWs c = false := by
  have hdne : (l.dropWhile isWs).reverse.dropWhile isWs ≠ [] := by
    intro h0
    exact h (by simp [pyStripList, h0])
  have hhead := List.head_dropWhile_not isWs (l.dropWhile isWs).reverse hdne
  exact ⟨_, List.mem_reverse.mpr (List.head_mem hdne), hhead⟩

theorem pySplit_tokens (s : String) :
    ∀ w ∈ pySplit s, w ≠ "" ∧ ∀ c ∈ w.data, isWs c = false := by
  intro w hw
  unfold pySplit at hw
  rcases List.mem_map.mp hw with ⟨tok, htok, rfl⟩
  obtain ⟨hne, hws⟩ := splitWsAux_tokens s.data [] (by simp) tok htok
  refine ⟨?_, hws⟩
  intro h0
  exact hne (by simpa [String.ext_iff] using h0)

/-- The filter in `count_words` never removes a token: `str.split()` only
produces nonempty, whitespace-free words. -/
theorem count_words_eq_length (s : String) :
    count_words s = (pySplit s).length := by
  unfold count_words
  rw [show (pySplit s).filter (fun w => decide (pyStrip w ≠ "")) = pySplit s from
    List.filter_eq_self.mpr ?_]
  intro w hw
  obtain ⟨hne, hws⟩ := pySplit_tokens s w hw
  rw [decide_eq_true_eq]
  show String.mk (pyStripList w.data) ≠ ""
  rw [pyStripList_eq_self hws]
  simpa [String.ext_iff] using hne

/-! ## C6 -/

/-- **C6.**  For every normalized article, `word_count` equals the number
of whitespace-separated non-empty tokens of the original (non-translated)
cleaned text: the code's filtered count coincides with the token count of
`str.split()`, which produces exactly the maximal non-whitespace runs. -/
theorem c6_word_count_spec (c : CleanedArticle) (language : String)
    (tt tx : Option String) (et : Bool) (tl : String) :
    (normalize_article c language tt tx et tl).word_count = (pySplit c.text).length :=
  count_words_eq_length c.text

/-! ## C2 -/

/-- **C2.**  A raw article whose text, after HTML cleaning and whitespace
normalization, is shorter than 100 characters is dropped: `process_article`
publishes nothing and leaves the dedup store untouched, and the consume
loop continues with the remaining messages exactly as if the article had
never arrived. -/
theorem c2_short_text_dropped (cleanHtml : String → String) (seen : List String)
    (a : RawArticle) (rest : List RawArticle)
    (h : (pyStrip (normalizeWs (cleanHtml a.content))).length < 100) :
    process_article cleanHtml seen a = (none, seen) ∧
    process_messages cleanHtml seen (a :: rest) = process_messages cleanHtml seen rest := by
  have hclean : clean_article_text cleanHtml a.content = "" := by
    simp [clean_article_text, h]
  have hpa : process_article cleanHtml seen a = (none, seen) := by
    simp [process_article, hclean]
  exact ⟨hpa, by simp only [process_messages, hpa]⟩

/-- Witness for C2 at the concrete article `rawShort` ("too short"). -/
theorem c2_witness :
    process_article id [] rawShort = (none, []) ∧
    process_messages id [] [rawShort] = process_messages id [] [] :=
  c2_short_text_dropped id [] rawShort [] (by decide)

/-! ## C9 -/

/-- **C9 (implicit).**  Every normalized article produced from a cleaned
article that the parser/deduper accepted (post-clean text of at least 100
characters) has `word_count` at least 1: an accepted text is nonempty,
starts with a non-whitespace character, and hence splits into at least one
token. -/
theorem c9_accepted_word_count_pos (cleanHtml : String → String)
    (seen seen' : List String) (a : RawArticle) (c : CleanedArticle)
    (h : process_article cleanHtml seen a = (some c, seen'))
    (language : String) (tt tx : Option String) (et : Bool) (tl : String) :
    1 ≤ (normalize_article c language tt tx et tl).word_count := by
  by_cases hv : clean_article_text cleanHtml a.content = ""
  · simp [process_article, hv] at h
  · simp only [process_article, if_neg hv] at h
    have hc : c.text = clean_article_text cleanHtml a.content := by
      have h1 := congrArg (fun p => p.1) h
      simp only [Option.some.injEq] at h1
      rw [← h1]
    show 1 ≤ count_words c.text
    rw [hc, count_words_eq_length]
    by_cases hlen : (pyStrip (normalizeWs (cleanHtml a.content))).length < 100
    · exact absurd (by simp [clean_article_text, hlen]) hv
    · have hct : clean_article_text cleanHtml a.content
          = pyStrip (normalizeWs (cleanHtml a.content)) := by
        simp [clean_article_text, hlen]
      rw [hct]
      have hne : pyStripList (normalizeWs (cleanHtml a.content)).data ≠ [] := by
        intro h0
        apply hlen
        have : (pyStrip (normalizeWs (cleanHtml a.content))).length = 0 := by
          simp [pyStrip, h0]
        omega
      obtain ⟨ch, hch, hws⟩ := pyStripList_has_non_ws _ hne
      have hsplit : pySplitList ((pyStrip (normalizeWs (cleanHtml a.content))).data) ≠ [] :=
        splitWsAux_ne_nil_of_mem _ [] ch hch hws
      rcases hres : pySplitList ((pyStrip (normalizeWs (cleanHtml a.content))).data)
        with _ | ⟨w, ws⟩
      · exact absurd hres hsplit
      · simp [pySplit, hres]

/-- Witness for C9: the concrete 100-character article `rawA "1"` is
accepted and its normalized record counts at least one word. -/
theorem c9_witness :
    1 ≤ (normalize_article cleanedSample "en" none none false "en").word_count :=
  c9_accepted_word_count_pos id [] [hashOf id (rawA "1")] (rawA "1")
    cleanedSample rfl "en" none none false "en"

/-! ## C3 -/

/-- UTF-8 encoding distributes over string concatenation. -/
theorem utf8Encode_append (a b : String) :
    utf8Encode (a ++ b) = utf8Encode a ++ utf8Encode b := by
  unfold utf8Encode
  rw [String.data_append, List.flatMap_append]

/-- **C3.**  The content hash computed at the cleaning stage equals the
hex-encoded SHA-256 digest of the concatenation of the lowercased, trimmed
title followed by the lowercased, trimmed text: hashing the f-string
concatenation is the same as hashing the two encoded halves in sequence. -/
theorem c3_content_hash (title content : String) :
    create_article_hash title content = spec_content_hash title content := by
  unfold create_article_hash spec_content_hash
  rw [utf8Encode_append]

/-! ## C7 -/

theorem splitOnDot_ne_nil : ∀ l : List Char, splitOnDot l ≠ [] := by
  intro l
  cases l with
  | nil => simp [splitOnDot]
  | cons c cs =>
    rw [splitOnDot]
    by_cases hc : c = '.'
    · simp [hc]
    · rw [if_neg hc]
      cases h : splitOnDot cs <;> simp [consHead]

theorem splitOnDot_length :
    ∀ l : List Char, (splitOnDot l).length = l.count '.' + 1 := by
  intro l
  induction l with
  | nil => simp [splitOnDot]
  | cons c cs ih =>
    rw [splitOnDot]
    by_cases hc : c = '.'
    · subst hc
      rw [if_pos rfl]
      simp [List.count_cons, ih]
    · rw [if_neg hc]
      rcases hsd : splitOnDot cs with _ | ⟨h, t⟩
      · exact absurd hsd (splitOnDot_ne_nil cs)
      · rw [hsd] at ih
        simp only [consHead, List.length_cons] at ih ⊢
        rw [List.count_cons, if_neg (by simpa using hc)]
        omega

theorem one_lt_splitOnDot_length_iff (l : List Char) :
    1 < (splitOnDot l).length ↔ '.' ∈ l := by
  rw [splitOnDot_length]
  constructor
  · intro h
    exact List.count_pos_iff.mp (by omega)
  · intro h
    have := List.count_pos_iff.mpr h
    omega

theorem joinWith_nil_cons (sep y : List Char) (t : List (List Char)) :
    joinWith sep ([] :: y :: t) = sep ++ joinWith sep (y :: t) := rfl

theorem joinWith_cons_head (sep : List Char) (c : Char) (h : List Char)
    (xs : List (List Char)) :
    joinWith sep ((c :: h) :: xs) = c :: joinWith sep (h :: xs) := by
  cases xs <;> simp [joinWith]

theorem dropWhile_ne_nil_of_exists {p : Char → Bool} :
    ∀ l : List Char, (∃ x ∈ l, p x = false) → l.dropWhile p ≠ [] := by
  intro l
  induction l with
  | nil => rintro ⟨x, hx, -⟩; simp at hx
  | cons a as ih =>
    rintro ⟨x, hx, hpx⟩
    rw [List.dropWhile_cons]
    cases hpa : p a with
    | true =>
      simp only [if_pos rfl]
      apply ih
      refine ⟨x, ?_, hpx⟩
      rcases List.mem_cons.mp hx with rfl | h
      · rw [hpa] at hpx; exact absurd hpx (by simp)
      · exact h
    | false => simp

theorem uptoLastDot_cons_of_mem (c : Char) (cs : List Char) (h : '.' ∈ cs) :
    uptoLastDot (c :: cs) = c :: uptoLastDot cs := by
  unfold uptoLastDot
  rw [List.reverse_cons, List.dropWhile_append]
  have hne : cs.reverse.dropWhile (fun c => !(c == '.')) ≠ [] :=
    dropWhile_ne_nil_of_exists _ ⟨'.', List.mem_reverse.mpr h, by simp⟩
  rw [if_neg (by simpa [List.isEmpty_iff] using hne)]
  simp

theorem uptoLastDot_single_dot (cs : List Char) (h : '.' ∉ cs) :
    uptoLastDot ('.' :: cs) = ['.'] := by
  unfold uptoLastDot
  rw [List.reverse_cons, List.dropWhile_append]
  have hnil : cs.reverse.dropWhile (fun c => !(c == '.')) = [] := by
    rw [List.dropWhile_eq_nil_iff]
    intro x hx
    have hxne : x ≠ '.' := fun h0 => h (h0 ▸ List.mem_reverse.mp hx)
    simpa using hxne
  rw [hnil]
  simp

theorem uptoLastDot_length_le (l : List Char) :
    (uptoLastDot l).length ≤ l.length := by
  unfold uptoLastDot
  rw [List.length_reverse]
  calc (l.reverse.dropWhile _).length ≤ l.reverse.length :=
        (List.dropWhile_sublist _).length_le
    _ = l.length := List.length_reverse l

/-- `'.'.join(sentences[:-1]) + '.'` recovers exactly the prefix of the
split text up to and including its last `'.'`. -/
theorem join_dropLast_splitOnDot :
    ∀ l : List Char, '.' ∈ l →
      joinWith ['.'] (splitOnDot l).dropLast ++ ['.'] = uptoLastDot l := by
  intro l
  induction l with
  | nil => intro h; simp at h
  | cons c cs ih =>
    intro hmem
    by_cases hc : c = '.'
    · subst hc
      rw [splitOnDot, if_pos rfl]
      by_cases hcs : '.' ∈ cs
      · have hlen : 1 < (splitOnDot cs).length :=
          (one_lt_splitOnDot_length_iff cs).mpr hcs
        rcases hsd : splitOnDot cs with _ | ⟨h, t⟩
        · exact absurd hsd (splitOnDot_ne_nil cs)
        · have ht : t ≠ [] := by
            rw [hsd] at hlen
            simp only [List.length_cons] at hlen
            exact List.ne_nil_of_length_pos (by omega)
          rw [List.dropLast_cons_of_ne_nil (List.cons_ne_nil h t),
            List.dropLast_cons_of_ne_nil ht, joinWith_nil_cons,
            uptoLastDot_cons_of_mem '.' cs hcs, ← ih hcs, hsd,
            List.dropLast_cons_of_ne_nil ht]
          simp
      · rcases hsd : splitOnDot cs with _ | ⟨h, t⟩
        · exact absurd hsd (splitOnDot_ne_nil cs)
        · have ht : t = [] := by
            have hlen := splitOnDot_length cs
            rw [hsd, List.count_eq_zero.mpr hcs] at hlen
            simp only [List.length_cons] at hlen
            exact List.length_eq_zero.mp (by omega)
          subst ht
          rw [uptoLastDot_single_dot cs hcs]
          rfl
    · have hcs : '.' ∈ cs := by
        rcases List.mem_cons.mp hmem with h | h
        · exact absurd h.symm hc
        · exact h
      rcases hsd : splitOnDot cs with _ | ⟨h, t⟩
      · exact absurd hsd (splitOnDot_ne_nil cs)
      · have ht : t ≠ [] := by
          have hlen := (one_lt_splitOnDot_length_iff cs).mpr hcs
          rw [hsd] at hlen
          simp only [List.length_cons] at hlen
          exact List.ne_nil_of_length_pos (by omega)
        rw [splitOnDot, if_neg hc, hsd]
        show joinWith ['.'] ((c :: h) :: t).dropLast ++ ['.'] = _
        rw [List.dropLast_cons_of_ne_nil ht, joinWith_cons_head,
          uptoLastDot_cons_of_mem c cs hcs, ← ih hcs, hsd,
          List.dropLast_cons_of_ne_nil ht]
        simp

/-- **C7 (amended).**  `truncate_text` returns the text unchanged when its
length is at most the cap; otherwise, when the first `cap` characters
contain a `'.'`, it returns the prefix up to and including the last `'.'`
within the cap (whose length is at most the cap); otherwise it returns the
first `cap` characters followed by an ellipsis, whose length is `cap + 3`
and therefore exceeds the cap. -/
theorem c7_truncate_amended (text : String) (cap : Nat) :
    (text.length ≤ cap → truncate_text text cap = text) ∧
    (cap < text.length → '.' ∈ text.data.take cap →
      truncate_text text cap = String.mk (uptoLastDot (text.data.take cap)) ∧
      (truncate_text text cap).length ≤ cap) ∧
    (cap < text.length → '.' ∉ text.data.take cap →
      truncate_text text cap = String.mk (text.data.take cap) ++ "..." ∧
      (truncate_text text cap).length = cap + 3) := by
  refine ⟨?_, ?_, ?_⟩
  · intro hle
    simp [truncate_text, hle]
  · intro hlt hdot
    have hnotle : ¬ text.length ≤ cap := by omega
    have hlen : 1 < (splitOnDot (text.data.take cap)).length :=
      (one_lt_splitOnDot_length_iff _).mpr hdot
    have heq : truncate_text text cap
        = String.mk (joinWith ['.'] (splitOnDot (text.data.take cap)).dropLast ++ ['.']) := by
      simp [truncate_text, hnotle, hlen]
    rw [heq, join_dropLast_splitOnDot _ hdot]
    refine ⟨rfl, ?_⟩
    rw [String.length_mk]
    calc (uptoLastDot (text.data.take cap)).length
        ≤ (text.data.take cap).length := uptoLastDot_length_le _
      _ ≤ cap := by simp [List.length_take]
  · intro hlt hdot
    have hnotle : ¬ text.length ≤ cap := by omega
    have hlen : ¬ 1 < (splitOnDot (text.data.take cap)).length := by
      rw [one_lt_splitOnDot_length_iff]
      exact hdot
    have heq : truncate_text text cap = String.mk (text.data.take cap) ++ "..." := by
      simp [truncate_text, hnotle, hlen]
    rw [heq]
    refine ⟨rfl, ?_⟩
    rw [String.length_append, String.length_mk, List.length_take]
    have hdata : text.data.length = text.length := rfl
    have h3 : ("..." : String).length = 3 := rfl
    omega

/-- **C7 counterexample.**  The claim "in every case the returned string's
length is at most the cap" fails: truncating the dot-free 5-character text
`"aaaaa"` to cap 2 yields `"aa..."` of length 5. -/
theorem c7_counterexample : ¬ (truncate_text "aaaaa" 2).length ≤ 2 := by decide

/-- Witness for the amended C7 at `("ab.cd.ef", 5)`: the sentence-boundary
branch returns `"ab."` and stays within the cap. -/
theorem c7_witness :
    truncate_text "ab.cd.ef" 5 = "ab." ∧ (truncate_text "ab.cd.ef" 5).length ≤ 5 := by
  obtain ⟨h1, h2⟩ := (c7_truncate_amended "ab.cd.ef" 5).2.1 (by decide) (by decide)
  exact ⟨by rw [h1]; decide, h2⟩

/-! ## C1: deduplication -/

theorem process_article_invalid (cleanHtml : String → String) (seen : List String)
    (a : RawArticle) (hv : ¬ validArticle cleanHtml a) :
    process_article cleanHtml seen a = (none, seen) := by
  have h0 : clean_article_text cleanHtml a.content = "" := not_ne_iff.mp hv
  simp [process_article, h0]

theorem process_article_dup (cleanHtml : String → String) (seen : List String)
    (a : RawArticle) (hv : validArticle cleanHtml a)
    (hs : hashOf cleanHtml a ∈ seen) :
    process_article cleanHtml seen a
      = (some { publishedRecord cleanHtml a with is_duplicate := true }, seen) := by
  unfold process_article
  rw [if_neg hv]
  have hs' : create_article_hash a.title (clean_article_text cleanHtml a.content) ∈ seen := hs
  simp [is_duplicate, publishedRecord, hashOf, hs']

theorem process_article_fresh (cleanHtml : String → String) (seen : List String)
    (a : RawArticle) (hv : validArticle cleanHtml a)
    (hs : hashOf cleanHtml a ∉ seen) :
    process_article cleanHtml seen a
      = (some (publishedRecord cleanHtml a), hashOf cleanHtml a :: seen) := by
  unfold process_article
  rw [if_neg hv]
  have hs' : create_article_hash a.title (clean_article_text cleanHtml a.content) ∉ seen := hs
  simp [is_duplicate, publishedRecord, hashOf, hs']

theorem process_messages_cons_invalid (cleanHtml : String → String)
    (seen : List String) (a : RawArticle) (rest : List RawArticle)
    (hv : ¬ validArticle cleanHtml a) :
    process_messages cleanHtml seen (a :: rest)
      = process_messages cleanHtml seen rest := by
  simp only [process_messages, process_article_invalid cleanHtml seen a hv]

theorem process_messages_cons_dup (cleanHtml : String → String)
    (seen : List String) (a : RawArticle) (rest : List RawArticle)
    (hv : validArticle cleanHtml a) (hs : hashOf cleanHtml a ∈ seen) :
    process_messages cleanHtml seen (a :: rest)
      = process_messages cleanHtml seen rest := by
  simp only [process_messages, process_article_dup cleanHtml seen a hv hs, if_pos]

theorem process_messages_cons_fresh (cleanHtml : String → String)
    (seen : List String) (a : RawArticle) (rest : List RawArticle)
    (hv : validArticle cleanHtml a) (hs : hashOf cleanHtml a ∉ seen) :
    process_messages cleanHtml seen (a :: rest)
      = (publishedRecord cleanHtml a
           :: (process_messages cleanHtml (hashOf cleanHtml a :: seen) rest).1,
         (process_messages cleanHtml (hashOf cleanHtml a :: seen) rest).2) := by
  simp only [process_messages, process_article_fresh cleanHtml seen a hv hs]
  simp [publishedRecord]

/-- The dedup invariant of the consume loop: published hashes are fresh
relative to the starting store, pairwise distinct, never flagged as
duplicates, and a fresh hash is published exactly when some valid article
in the batch carries it; the final store holds the old hashes plus the
hashes of all valid articles. -/
theorem process_messages_dedup_spec (cleanHtml : String → String) :
    ∀ (msgs : List RawArticle) (seen : List String),
      (∀ c ∈ (process_messages cleanHtml seen msgs).1, c.content_hash ∉ seen) ∧
      (∀ c ∈ (process_messages cleanHtml seen msgs).1, c.is_duplicate = false) ∧
      ((process_messages cleanHtml seen msgs).1.map (fun c => c.content_hash)).Nodup ∧
      (∀ x, x ∈ (process_messages cleanHtml seen msgs).2 ↔
        x ∈ seen ∨ ∃ a ∈ msgs, validArticle cleanHtml a ∧ hashOf cleanHtml a = x) ∧
      (∀ h, h ∉ seen →
        ((∃ c ∈ (process_messages cleanHtml seen msgs).1, c.content_hash = h) ↔
          ∃ a ∈ msgs, validArticle cleanHtml a ∧ hashOf cleanHtml a = h)) := by
  intro msgs
  induction msgs with
  | nil =>
    intro seen
    simp [process_messages]
  | cons a rest ih =>
    intro seen
    by_cases hv : validArticle cleanHtml a
    · by_cases hs : hashOf cleanHtml a ∈ seen
      · rw [process_messages_cons_dup cleanHtml seen a rest hv hs]
        obtain ⟨ih1, ih2, ih3, ih4, ih5⟩ := ih seen
        refine ⟨ih1, ih2, ih3, ?_, ?_⟩
        · intro x
          rw [ih4 x]
          constructor
          · rintro (hx | ⟨b, hb, hvb, hhb⟩)
            · exact Or.inl hx
            · exact Or.inr ⟨b, List.mem_cons_of_mem _ hb, hvb, hhb⟩
          · rintro (hx | ⟨b, hb, hvb, hhb⟩)
            · exact Or.inl hx
            · rcases List.mem_cons.mp hb with rfl | hb
              · exact Or.inl (hhb ▸ hs)
              · exact Or.inr ⟨b, hb, hvb, hhb⟩
        · intro h hh
          rw [ih5 h hh]
          constructor
          · rintro ⟨b, hb, hvb, hhb⟩
            exact ⟨b, List.mem_cons_of_mem _ hb, hvb, hhb⟩
          · rintro ⟨b, hb, hvb, hhb⟩
            rcases List.mem_cons.mp hb with rfl | hb
            · exact absurd (hhb ▸ hs) hh
            · exact ⟨b, hb, hvb, hhb⟩
      · rw [process_messages_cons_fresh cleanHtml seen a rest hv hs]
        obtain ⟨ih1, ih2, ih3, ih4, ih5⟩ := ih (hashOf cleanHtml a :: seen)
        refine ⟨?_, ?_, ?_, ?_, ?_⟩
        · intro c hc
          rcases List.mem_cons.mp hc with rfl | hc
          · simpa [publishedRecord] using hs
          · intro hmem
            exact ih1 c hc (List.mem_cons_of_mem _ hmem)
        · intro c hc
          rcases List.mem_cons.mp hc with rfl | hc
          · rfl
          · exact ih2 c hc
        · rw [List.map_cons, List.nodup_cons]
          refine ⟨?_, ih3⟩
          intro hmem
          rcases List.mem_map.mp hmem with ⟨c, hc, hch⟩
          have hfresh := ih1 c hc
          apply hfresh
          rw [hch]
          exact List.mem_cons_self _ _
        · intro x
          rw [ih4 x]
          constructor
          · rintro (hx | ⟨b, hb, hvb, hhb⟩)
            · rcases List.mem_cons.mp hx with rfl | hx
              · exact Or.inr ⟨a, List.mem_cons_self _ _, hv, rfl⟩
              · exact Or.inl hx
            · exact Or.inr ⟨b, List.mem_cons_of_mem _ hb, hvb, hhb⟩
          · rintro (hx | ⟨b, hb, hvb, hhb⟩)
            · exact Or.inl (List.mem_cons_of_mem _ hx)
            · rcases List.mem_cons.mp hb with rfl | hb
              · exact Or.inl (hhb ▸ List.mem_cons_self _ _)
              · exact Or.inr ⟨b, hb, hvb, hhb⟩
        · intro h hh
          by_cases hcase : h = hashOf cleanHtml a
          · subst hcase
            constructor
            · intro _
              exact ⟨a, List.mem_cons_self _ _, hv, rfl⟩
            · intro _
              exact ⟨publishedRecord cleanHtml a, List.mem_cons_self _ _, rfl⟩
          · have hh' : h ∉ hashOf cleanHtml a :: seen := by
              intro hmem
              rcases List.mem_cons.mp hmem with rfl | hmem
              · exact hcase rfl
              · exact hh hmem
            have hiff : (∃ c ∈ publishedRecord cleanHtml a
                  :: (process_messages cleanHtml (hashOf cleanHtml a :: seen) rest).1,
                c.content_hash = h) ↔
                (∃ c ∈ (process_messages cleanHtml (hashOf cleanHtml a :: seen) rest).1,
                  c.content_hash = h) := by
              constructor
              · rintro ⟨c, hc, hch⟩
                rcases List.mem_cons.mp hc with rfl | hc
                · exact absurd hch.symm hcase
                · exact ⟨c, hc, hch⟩
              · rintro ⟨c, hc, hch⟩
                exact ⟨c, List.mem_cons_of_mem _ hc, hch⟩
            rw [hiff, ih5 h hh']
            constructor
            · rintro ⟨b, hb, hvb, hhb⟩
              exact ⟨b, List.mem_cons_of_mem _ hb, hvb, hhb⟩
            · rintro ⟨b, hb, hvb, hhb⟩
              rcases List.mem_cons.mp hb with rfl | hb
              · exact absurd hhb.symm hcase
              · exact ⟨b, hb, hvb, hhb⟩
    · rw [process_messages_cons_invalid cleanHtml seen a rest hv]
      obtain ⟨ih1, ih2, ih3, ih4, ih5⟩ := ih seen
      refine ⟨ih1, ih2, ih3, ?_, ?_⟩
      · intro x
        rw [ih4 x]
        constructor
        · rintro (hx | ⟨b, hb, hvb, hhb⟩)
          · exact Or.inl hx
          · exact Or.inr ⟨b, List.mem_cons_of_mem _ hb, hvb, hhb⟩
        · rintro (hx | ⟨b, hb, hvb, hhb⟩)
          · exact Or.inl hx
          · rcases List.mem_cons.mp hb with rfl | hb
            · exact absurd hvb hv
            · exact Or.inr ⟨b, hb, hvb, hhb⟩
      · intro h hh
        rw [ih5 h hh]
        constructor
        · rintro ⟨b, hb, hvb, hhb⟩
          exact ⟨b, List.mem_cons_of_mem _ hb, hvb, hhb⟩
        · rintro ⟨b, hb, hvb, hhb⟩
          rcases List.mem_cons.mp hb with rfl | hb
          · exact absurd hvb hv
          · exact ⟨b, hb, hvb, hhb⟩

/-- **C1 (amended).**  In any consume-loop run, the published records carry
pairwise distinct content hashes (so at most one of any two identical
articles is published), every published record has `is_duplicate = false`,
and for a hash not already in the dedup store a record with that hash is
published exactly when some article of the batch with valid cleaned text
carries it — so of a group of identical valid articles whose hash is fresh,
exactly one (the first) is published and all the others are marked
duplicates and dropped. -/
theorem c1_dedup_amended (cleanHtml : String → String) (msgs : List RawArticle)
    (seen : List String) :
    ((process_messages cleanHtml seen msgs).1.map (fun c => c.content_hash)).Nodup ∧
    (∀ c ∈ (process_messages cleanHtml seen msgs).1, c.is_duplicate = false) ∧
    (∀ h, h ∉ seen →
      ((∃ c ∈ (process_messages cleanHtml seen msgs).1, c.content_hash = h) ↔
        ∃ a ∈ msgs, validArticle cleanHtml a ∧ hashOf cleanHtml a = h)) := by
  obtain ⟨-, h2, h3, -, h5⟩ := process_messages_dedup_spec cleanHtml msgs seen
  exact ⟨h3, h2, h5⟩

/-- Witness for the amended C1: processing the three identical articles
`c1msgs` from an empty store publishes a record carrying their common
hash. -/
theorem c1_witness :
    ∃ c ∈ (process_messages id [] c1msgs).1, c.content_hash = hashOf id (rawA "1") := by
  have h := (c1_dedup_amended id c1msgs []).2.2 (hashOf id (rawA "1")) (by simp)
  exact h.mpr ⟨rawA "1", by simp [c1msgs], by decide, rfl⟩

/-- **C1 counterexample.**  The claim as stated — "for every pair of
identical articles within the window, exactly one of the two is published"
— fails: among the three identical valid articles of `c1msgs`, the pair
(second, third) has identical keys, yet neither member is published (only
the first article of the run is). -/
theorem c1_counterexample :
    (pyLower (pyStrip (rawA "2").title) = pyLower (pyStrip (rawA "3").title) ∧
     clean_article_text id (rawA "2").content = clean_article_text id (rawA "3").content ∧
     validArticle id (rawA "2") ∧ validArticle id (rawA "3")) ∧
    (process_messages id [] c1msgs).1.map (fun c => c.id) = ["1"] ∧
    ¬ Xor' ((rawA "2").id ∈ (process_messages id [] c1msgs).1.map (fun c => c.id))
           ((rawA "3").id ∈ (process_messages id [] c1msgs).1.map (fun c => c.id)) := by
  have hv1 : validArticle id (rawA "1") := by decide
  have hv2 : validArticle id (rawA "2") := by decide
  have hv3 : validArticle id (rawA "3") := by decide
  have heq2 : hashOf id (rawA "2") = hashOf id (rawA "1") := rfl
  have heq3 : hashOf id (rawA "3") = hashOf id (rawA "1") := rfl
  have hpub : (process_messages id [] c1msgs).1.map (fun c => c.id) = ["1"] := by
    have hstep : c1msgs = rawA "1" :: [rawA "2", rawA "3"] := rfl
    rw [hstep,
      process_messages_cons_fresh id [] (rawA "1") [rawA "2", rawA "3"] hv1 (by simp),
      process_messages_cons_dup id _ (rawA "2") [rawA "3"] hv2
        (by rw [heq2]; exact List.mem_cons_self _ _),
      process_messages_cons_dup id _ (rawA "3") [] hv3
        (by rw [heq3]; exact List.mem_cons_self _ _)]
    simp [process_messages, publishedRecord, rawA]
  refine ⟨⟨rfl, rfl, hv2, hv3⟩, hpub, ?_⟩
  rw [hpub, show (rawA "2").id = "2" from rfl, show (rawA "3").id = "3" from rfl]
  simp only [Xor']
  decide

/-! ## C8: the in-process cache -/

theorem process_messages_cache_mono (cleanHtml : String → String) :
    ∀ (msgs : List RawArticle) (seen : List String),
      seen.length ≤ (process_messages cleanHtml seen msgs).2.length := by
  intro msgs
  induction msgs with
  | nil =>
    intro seen
    simp [process_messages]
  | cons a rest ih =>
    intro seen
    by_cases hv : validArticle cleanHtml a
    · by_cases hs : hashOf cleanHtml a ∈ seen
      · rw [process_messages_cons_dup cleanHtml seen a rest hv hs]
        exact ih seen
      · rw [process_messages_cons_fresh cleanHtml seen a rest hv hs]
        exact le_trans (Nat.le_succ seen.length) (ih (hashOf cleanHtml a :: seen))
    · rw [process_messages_cons_invalid cleanHtml seen a rest hv]
      exact ih seen

/-- **C8.**  The consume loop never shrinks the seen-hash cache — no
clearing ever happens while messages are processed, so from a store already
holding 10,001 hashes the cache stays above 10,000 after processing a
message; the size-based clearing lives only in `cleanup_cache`, which the
consume loop never invokes. -/
theorem c8_cache_never_cleared :
    (∀ (cleanHtml : String → String) (seen : List String) (msgs : List RawArticle),
      seen.length ≤ (process_messages cleanHtml seen msgs).2.length) ∧
    10000 < (process_messages id bigCache [rawA "1"]).2.length ∧
    cleanup_cache bigCache = [] := by
  have hlen : bigCache.length = 10001 := by simp [bigCache]
  refine ⟨fun cleanHtml seen msgs => process_messages_cache_mono cleanHtml msgs seen, ?_, ?_⟩
  · have h := process_messages_cache_mono id [rawA "1"] bigCache
    omega
  · simp [cleanup_cache, hlen]

/-! ## C4: pass-through enrichment -/

/-- **C4 counterexample.**  Pass-through enrichment is not a pure function
of the article: the same normalized article enriched at two different
times yields different records, because `metadata.enrichment.enriched_at`
records the wall-clock timestamp. -/
theorem c4_counterexample :
    enrich_article_passthrough normSample "2025-01-01T00:00:00"
      ≠ enrich_article_passthrough normSample "2025-01-01T00:00:01" := by
  intro hEq
  have h := congrArg getEnrichedAt hEq
  simp +decide [getEnrichedAt, enrich_article_passthrough, mergeMeta, normSample] at h

/-- **C4 (amended).**  Pass-through enrichment is a pure function of the
article up to the `enriched_at` timestamp: with that one metadata entry
removed, enriching the same normalized article at any two times yields
identical records — including the rest of the metadata (`model`
`"pass-through"`, `embedding_model` `"none"`). -/
theorem c4_passthrough_pure_amended (a : NormalizedArticle) (t1 t2 : String) :
    erase_enriched_at (enrich_article_passthrough a t1)
      = erase_enriched_at (enrich_article_passthrough a t2) := by
  simp +decide [erase_enriched_at, enrich_article_passthrough, mergeMeta,
    eraseObjKeyEnrichedAt, List.map_append]

/-! ## C5: search-result ordering -/

/-- **C5.**  The store-backed `/search` path returns articles sorted by
`published_at` descending (the API sends the sort clause and the store
honours it), but the mock fallback path does not: on the unfiltered mock
corpus the request fails outright (the corpus dicts lack required
`EnrichedArticle` fields), and the list the mock branch would paginate is
in corpus order, which is ascending — not descending — by `published_at`. -/
theorem c5_search_sorting :
    (∀ (mm : String → EnrichedArticle → Bool) (store : List EnrichedArticle)
      (r : SearchRequest), (es_search mm store r).Pairwise pubDesc) ∧
    mock_search "" none none none 1 20 = none ∧
    (mock_filtered_articles "" none none none).map (fun d => dgetStr d "published_at")
      = ["2025-09-14T01:00:00Z", "2025-09-14T02:00:00Z", "2025-09-14T03:00:00Z"] ∧
    ¬ (["2025-09-14T01:00:00Z", "2025-09-14T02:00:00Z", "2025-09-14T03:00:00Z"].map
        String.data).Pairwise (fun a b => b ≤ a) := by
  refine ⟨?_, rfl, rfl, by decide⟩
  intro mm store r
  unfold es_search
  exact List.Pairwise.sublist ((List.take_sublist _ _).trans (List.drop_sublist _ _))
    (List.sorted_insertionSort pubDesc _)

/-! ## C10: empty query -/

/-- **C10.**  An empty query string contributes no full-text clause: the
built Elasticsearch query reduces to `match_all` (with no filters), under
which every stored document matches whatever the full-text oracle does.
In mock mode, however, the corpus is *not* returned: constructing
`EnrichedArticle`s from the mock dicts fails validation, so the call
errors instead of returning the three articles. -/
theorem c10_empty_query_matches_all :
    build_elasticsearch_query emptySearchRequest
      = { must := [ESClause.matchAll], filter := [] } ∧
    (∀ (mm : String → EnrichedArticle → Bool) (a : EnrichedArticle),
      esQueryMatches mm (build_elasticsearch_query emptySearchRequest) a = true) ∧
    mock_search "" none none none 1 20 = none := by
  exact ⟨rfl, fun mm a => rfl, rfl⟩

end Nexora
